import Mathlib

/-!
Verification of the subtitle rendering core of `yt_whisper`.

The repository ships `yt_whisper/cli.py` (the orchestrator) which imports the
rendering core from `yt_whisper.utils` (`write_srt`, `write_vtt`, the time
formatter and the line breaker).  The `utils` module itself is not part of the
source tree given here, so the core is modelled from the specification; the
orchestrator-level behaviour (warning-filter mutation, the title-keyed audio
dictionary) is embedded directly from `cli.py`.
-/

namespace YtWhisper

/-- Errors of the rendering core, per the spec's error-handling design. -/
inductive CoreError where
  | invalidTimestamp
  | emptyCaption
  deriving DecidableEq, Repr

/-! ## Line breaker -/

/-- Splitting a character list on whitespace, accumulating the current word
reversed.  Auxiliary for `wordsOf`. -/
def splitWsAux : List Char → List Char → List (List Char)
  | cur, [] => if cur = [] then [] else [cur.reverse]
  | cur, c :: rest =>
    if c.isWhitespace then
      if cur = [] then splitWsAux [] rest else cur.reverse :: splitWsAux [] rest
    else splitWsAux (c :: cur) rest

/-- Modelled from the spec: `wrap` splits its text "into whitespace-delimited
words"; the whitespace-splitting itself lives in the missing `utils` module. -/
def wordsOf (s : String) : List String :=
  (splitWsAux [] s.data).map String.mk

/-- Modelled from the spec: trimming, as in the invariant's "original trimmed
text" — leading and trailing whitespace removed. -/
def strTrim (s : String) : String :=
  String.mk ((s.data.dropWhile Char.isWhitespace).reverse.dropWhile Char.isWhitespace).reverse

/-- Join a list of strings with single spaces. -/
def sjoin : List String → String
  | [] => ""
  | [x] => x
  | x :: y :: rest => x ++ " " ++ sjoin (y :: rest)

/-- Rendered length of a line given as a list of words: the word lengths plus
one separating space between adjacent words. -/
def lineLen (l : List String) : Nat :=
  (l.map String.length).sum + (l.length - 1)

/-- Greedy packing of words into lines, `cur` being the (nonempty) line under
construction.  A word that does not fit opens a new line. -/
def greedyGo (w : Nat) (cur : List String) : List String → List (List String)
  | [] => [cur]
  | x :: rest =>
    if lineLen (cur ++ [x]) ≤ w then greedyGo w (cur ++ [x]) rest
    else cur :: greedyGo w [x] rest

/-- Modelled from the spec: "Greedily pack words into lines without exceeding
`max_width` characters per line (a single space separates words on the same
line; the separator counts toward the width)."  An overlong word never fits
next to anything, so it is emitted as its own line. -/
def greedy (ws : List String) (w : Nat) : List (List String) :=
  match ws with
  | [] => []
  | x :: rest => greedyGo w [x] rest

/-- All splits of `ws` into exactly `n` contiguous nonempty groups. -/
def splitsN (ws : List String) : Nat → List (List (List String))
  | 0 => if ws = [] then [[]] else []
  | n + 1 =>
    (List.range ws.length).flatMap fun i =>
      (splitsN (ws.drop (i + 1)) n).map fun p => ws.take (i + 1) :: p

/-- A packing respects the width if every line fits, except that a line that
is a single (overlong) word is allowed regardless of width. -/
def widthOk (p : List (List String)) (w : Nat) : Bool :=
  p.all fun l => decide (lineLen l ≤ w) || l.length == 1

/-- Adjacent-pairs check that a list of lengths is non-decreasing. -/
def nondecChain : List Nat → Bool
  | [] => true
  | [_] => true
  | a :: b :: rest => decide (a ≤ b) && nondecChain (b :: rest)

/-- Maximum rendered line length of a packing. -/
def maxLen (p : List (List String)) : Nat :=
  (p.map lineLen).foldl max 0

/-- Modelled from the spec: "among all line-count-preserving, width-respecting
packings, select the one that minimizes the maximum line length while keeping
line lengths non-decreasing from first to last line."  Candidate packings of
the words into the line count of the greedy pack. -/
def candidates (ws : List String) (w : Nat) : List (List (List String)) :=
  (splitsN ws (greedy ws w).length).filter fun p =>
    widthOk p w && nondecChain (p.map lineLen)

/-- Pick the first candidate of minimal maximum line length (enumeration order
puts word-light early lines first, realizing the spec's tie-break of keeping
words with the later line). -/
def selectBest : List (List (List String)) → Option (List (List String))
  | [] => none
  | c :: cs => some (cs.foldl (fun best x => if maxLen x < maxLen best then x else best) c)

/-- The pyramid redistribution at the word level: the best candidate when one
exists, otherwise the greedy packing (the non-decreasing constraint can be
unsatisfiable, e.g. a long word followed by a short one). -/
def wrapWords (ws : List String) (w : Nat) : List (List String) :=
  match selectBest (candidates ws w) with
  | some p => p
  | none => greedy ws w

/-- Modelled from the spec: `wrap(text, max_width)` of the missing
`yt_whisper.utils` line breaker.  `max_width ≤ 0` disables breaking; empty or
all-whitespace text is an `EmptyCaption` error; otherwise greedy packing
followed by pyramid redistribution. -/
def wrap (text : String) (maxWidth : Int) : Except CoreError (List String) :=
  if maxWidth ≤ 0 then .ok [text]
  else
    let ws := wordsOf text
    if ws = [] then .error .emptyCaption
    else .ok ((wrapWords ws maxWidth.toNat).map sjoin)

/-! ## Time formatter -/

/-- The two subtitle dialects of the core: A is the header-based one (WEBVTT,
dot millisecond separator), B the index-based one (SRT, comma separator). -/
inductive Dialect where
  | vtt
  | srt
  deriving DecidableEq, Repr

/-- Millisecond separator of a dialect. -/
def Dialect.sep : Dialect → String
  | .vtt => "."
  | .srt => ","

/-- Round half away from zero. -/
def roundHalfAway (q : ℚ) : Int :=
  if 0 ≤ q then ⌊q + 1 / 2⌋ else ⌈q - 1 / 2⌉

/-- Modelled from the spec: the time formatter's millisecond scaling of the
missing `yt_whisper.utils` module — "multiply by 1000, round
half-away-from-zero, then decompose".  Computed on the reduced
numerator/denominator; `msOf_eq_roundHalfAway` identifies it with the
rational-level rounding. -/
def msOf (seconds : ℚ) : Int :=
  if 0 ≤ seconds.num then (2000 * seconds.num + seconds.den) / (2 * (seconds.den : Int))
  else -((2000 * (-seconds.num) + seconds.den) / (2 * (seconds.den : Int)))

/-- Zero-pad a numeral to at least two digits. -/
def pad2 (n : Nat) : String :=
  if n < 10 then "0" ++ toString n else toString n

/-- Zero-pad a numeral to at least three digits. -/
def pad3 (n : Nat) : String :=
  if n < 10 then "00" ++ toString n
  else if n < 100 then "0" ++ toString n
  else toString n

/-- Render a nonnegative millisecond count as `HH:MM:SS<sep>mmm`. -/
def renderMs (ms : Nat) (d : Dialect) : String :=
  pad2 (ms / 3600000) ++ ":" ++ pad2 (ms % 3600000 / 60000) ++ ":" ++
    pad2 (ms % 60000 / 1000) ++ d.sep ++ pad3 (ms % 1000)

/-- Modelled from the spec: `format(seconds, dialect)` of the missing
`yt_whisper.utils` time formatter.  Negative input is an `InvalidTimestamp`
caller error; otherwise decompose the rounded milliseconds into
`HH:MM:SS<sep>mmm` with at-least-two-digit fields. -/
def formatTimestamp (seconds : ℚ) (d : Dialect) : Except CoreError String :=
  if seconds < 0 then .error .invalidTimestamp
  else .ok (renderMs (msOf seconds).toNat d)

/-! ## Segment renderer and subtitle writers -/

/-- A timed transcript segment as delivered by the transcription collaborator. -/
structure Segment where
  start : ℚ
  stop : ℚ
  text : String
  deriving DecidableEq, Repr

/-- Modelled from the spec: the segment renderer — validates the timestamps
(`InvalidTimestamp` when start/stop is negative or `stop < start`), then emits
the optional index line, the time-code range line, and the wrapped text. -/
def render (seg : Segment) (index : Option Nat) (d : Dialect) (maxWidth : Int) :
    Except CoreError (List String) :=
  if seg.stop < seg.start then .error .invalidTimestamp
  else
    match formatTimestamp seg.start d, formatTimestamp seg.stop d, wrap seg.text maxWidth with
    | .ok s, .ok e, .ok lines =>
      .ok (match index with
        | some i => toString i :: (s ++ " --> " ++ e) :: lines
        | none => (s ++ " --> " ++ e) :: lines)
    | .error er, _, _ => .error er
    | .ok _, .error er, _ => .error er
    | .ok _, .ok _, .error er => .error er

/-- Dialect B body: index line, caption block, then one blank line, for each
segment with 1-based index `i`. -/
def writeSRTGo (maxWidth : Int) (i : Nat) : List Segment → Except CoreError (List String)
  | [] => .ok []
  | seg :: rest =>
    match render seg (some i) .srt maxWidth, writeSRTGo maxWidth (i + 1) rest with
    | .ok block, .ok tail => .ok (block ++ [""] ++ tail)
    | .error er, _ => .error er
    | .ok _, .error er => .error er

/-- Modelled from the spec: `write_srt` of the missing `yt_whisper.utils`
module — no header, sequential 1-based numeric indices, one blank line after
each caption block. -/
def writeSRT (transcript : List Segment) (maxWidth : Int) : Except CoreError (List String) :=
  writeSRTGo maxWidth 1 transcript

/-- Dialect A body after the header: one blank line before each caption block. -/
def writeVTTGo (maxWidth : Int) : List Segment → Except CoreError (List String)
  | [] => .ok []
  | seg :: rest =>
    match render seg none .vtt maxWidth, writeVTTGo maxWidth rest with
    | .ok block, .ok tail => .ok ("" :: block ++ tail)
    | .error er, _ => .error er
    | .ok _, .error er => .error er

/-- Modelled from the spec: `write_vtt` of the missing `yt_whisper.utils`
module — fixed `WEBVTT` header, then for each segment a blank line followed by
its caption block, no indices. -/
def writeVTT (transcript : List Segment) (maxWidth : Int) : Except CoreError (List String) :=
  match writeVTTGo maxWidth transcript with
  | .ok body => .ok ("WEBVTT" :: body)
  | .error er => .error er

/-! ## Orchestrator state: warnings filters (`cli.py` lines 91–93)

Python's `warnings.filterwarnings(action)` prepends a catch-everything filter
to the process-global `warnings.filters` list; warning dispatch uses the
first filter whose matcher accepts the warning, falling back to the default
behaviour.  Warnings are abstracted as `Nat`. -/

/-- Warning-filter actions (the subset relevant to `cli.py`). -/
inductive WAction where
  | ignore
  | default
  | error
  deriving DecidableEq, Repr

/-- One entry of the global `warnings.filters` list: a matcher plus an action. -/
structure WFilter where
  matcher : Nat → Bool
  action : WAction

/-- `warnings.filterwarnings(a)` with no category/message arguments: prepend a
filter matching every warning. -/
def filterwarnings (a : WAction) (st : List WFilter) : List WFilter :=
  ⟨fun _ => true, a⟩ :: st

/-- Effective action for warning `w` under filter state `st`: first matching
filter wins, otherwise the default behaviour. -/
def effAction (st : List WFilter) (w : Nat) : WAction :=
  match st.find? (fun f => f.matcher w) with
  | some f => f.action
  | none => .default

/-- The warning-filter mutation `main` performs around one `model.transcribe`
call (`cli.py` lines 91–93): `filterwarnings("ignore")` before,
`filterwarnings("default")` after. -/
def transcribeWarnStep (st : List WFilter) : List WFilter :=
  filterwarnings .default (filterwarnings .ignore st)

/-- Warning-filter state after `main`'s loop has transcribed `k` sources. -/
def mainWarnLoop (st : List WFilter) : Nat → List WFilter
  | 0 => st
  | k + 1 => mainWarnLoop (transcribeWarnStep st) k

/-! ## Orchestrator: `get_audio` (`cli.py` lines 124–157) -/

/-- The fields of a `yt_dlp.extract_info` result that `get_audio` reads. -/
structure VideoInfo where
  title : String
  vid : String
  deriving DecidableEq, Repr

/-- The per-video metadata value `get_audio` stores. -/
structure AudioData where
  path : String
  vid : String
  deriving DecidableEq, Repr

/-- Python-dict assignment `d[k] = v` on an insertion-ordered association
list: update in place when the key exists, else append. -/
def dictInsert {β : Type} (k : String) (v : β) : List (String × β) → List (String × β)
  | [] => [(k, v)]
  | (k', v') :: rest => if k' = k then (k, v) :: rest else (k', v') :: dictInsert k v rest

/-- The value stored for one downloaded video:
`{"path": os.path.join(temp_dir, f"{id}.mp3"), "id": id}`. -/
def audioEntry (tempDir : String) (r : VideoInfo) : AudioData :=
  ⟨tempDir ++ "/" ++ r.vid ++ ".mp3", r.vid⟩

/-- The download loop of `get_audio`: `paths[result["title"]] = {...}` per
URL, with `resolve` abstracting `ydl.extract_info`. -/
def getAudioGo (resolve : String → VideoInfo) (tempDir : String)
    (acc : List (String × AudioData)) : List String → List (String × AudioData)
  | [] => acc
  | url :: rest =>
    getAudioGo resolve tempDir
      (dictInsert (resolve url).title (audioEntry tempDir (resolve url)) acc) rest

/-- `get_audio(urls)`: the title-keyed dictionary of downloaded audio files. -/
def getAudio (resolve : String → VideoInfo) (tempDir : String)
    (urls : List String) : List (String × AudioData) :=
  getAudioGo resolve tempDir [] urls

/-! ## Structural lemmas about the line breaker -/

theorem greedyGo_flatten (w : Nat) (ws : List String) :
    ∀ cur, (greedyGo w cur ws).flatten = cur ++ ws := by
  induction ws with
  | nil => intro cur; simp [greedyGo]
  | cons x rest ih =>
    intro cur
    by_cases h : lineLen (cur ++ [x]) ≤ w
    · simp [greedyGo, h, ih]
    · simp [greedyGo, h, ih]

theorem greedyGo_parts_ne_nil (w : Nat) (ws : List String) :
    ∀ cur, cur ≠ [] → ∀ l ∈ greedyGo w cur ws, l ≠ [] := by
  induction ws with
  | nil => intro cur hcur l hl; simp [greedyGo] at hl; simpa [hl]
  | cons x rest ih =>
    intro cur hcur l hl
    by_cases h : lineLen (cur ++ [x]) ≤ w
    · simp only [greedyGo, h, if_pos] at hl
      exact ih (cur ++ [x]) (by simp) l hl
    · simp only [greedyGo, h, if_neg, not_false_iff, List.mem_cons] at hl
      rcases hl with rfl | hl
      · exact hcur
      · exact ih [x] (by simp) l hl

theorem greedyGo_widthOk (w : Nat) (ws : List String) :
    ∀ cur, (lineLen cur ≤ w ∨ cur.length = 1) →
      ∀ l ∈ greedyGo w cur ws, lineLen l ≤ w ∨ l.length = 1 := by
  induction ws with
  | nil => intro cur hcur l hl; simp [greedyGo] at hl; simpa [hl]
  | cons x rest ih =>
    intro cur hcur l hl
    by_cases h : lineLen (cur ++ [x]) ≤ w
    · simp only [greedyGo, h, if_pos] at hl
      exact ih (cur ++ [x]) (Or.inl h) l hl
    · simp only [greedyGo, h, if_neg, not_false_iff, List.mem_cons] at hl
      rcases hl with rfl | hl
      · exact hcur
      · exact ih [x] (Or.inr rfl) l hl

theorem greedy_flatten (ws : List String) (w : Nat) : (greedy ws w).flatten = ws := by
  cases ws with
  | nil => rfl
  | cons x rest => simpa [greedy] using greedyGo_flatten w rest [x]

theorem greedy_parts_ne_nil (ws : List String) (w : Nat) :
    ∀ l ∈ greedy ws w, l ≠ [] := by
  cases ws with
  | nil => intro l hl; simp [greedy] at hl
  | cons x rest => exact greedyGo_parts_ne_nil w rest [x] (by simp)

theorem greedy_widthOk (ws : List String) (w : Nat) :
    ∀ l ∈ greedy ws w, lineLen l ≤ w ∨ l.length = 1 := by
  cases ws with
  | nil => intro l hl; simp [greedy] at hl
  | cons x rest => exact greedyGo_widthOk w rest [x] (Or.inr rfl)

theorem splitsN_flatten (n : Nat) :
    ∀ ws : List String, ∀ p ∈ splitsN ws n, p.flatten = ws := by
  induction n with
  | zero =>
    intro ws p hp
    simp only [splitsN] at hp
    by_cases h : ws = []
    · simp [h] at hp; simp [hp, h]
    · simp [h] at hp
  | succ n ih =>
    intro ws p hp
    simp only [splitsN, List.mem_flatMap, List.mem_map, List.mem_range] at hp
    obtain ⟨i, _, q, hq, rfl⟩ := hp
    simp [ih _ q hq]

theorem splitsN_parts_ne_nil (n : Nat) :
    ∀ ws : List String, ∀ p ∈ splitsN ws n, ∀ l ∈ p, l ≠ [] := by
  induction n with
  | zero =>
    intro ws p hp l hl
    simp only [splitsN] at hp
    by_cases h : ws = []
    · simp [h] at hp; simp [hp] at hl
    · simp [h] at hp
  | succ n ih =>
    intro ws p hp l hl
    simp only [splitsN, List.mem_flatMap, List.mem_map, List.mem_range] at hp
    obtain ⟨i, hi, q, hq, rfl⟩ := hp
    rcases hl with _ | hl
    · intro hc
      have : (List.take (i + 1) ws).length = 0 := by simp [hc]
      simp only [List.length_take] at this
      omega
    · exact ih _ q hq l (by assumption)

theorem foldl_pick_mem (c : List (List (List String))) :
    ∀ b : List (List String),
      (c.foldl (fun best x => if maxLen x < maxLen best then x else best) b) = b ∨
        (c.foldl (fun best x => if maxLen x < maxLen best then x else best) b) ∈ c := by
  induction c with
  | nil => intro b; simp
  | cons x rest ih =>
    intro b
    simp only [List.foldl_cons]
    by_cases h : maxLen x < maxLen b
    · rw [if_pos h]
      rcases ih x with h' | h'
      · right; simp [h']
      · right; exact List.mem_cons_of_mem _ h'
    · rw [if_neg h]
      rcases ih b with h' | h'
      · left; exact h'
      · right; exact List.mem_cons_of_mem _ h'

theorem selectBest_mem {l : List (List (List String))} {p : List (List String)}
    (h : selectBest l = some p) : p ∈ l := by
  cases l with
  | nil => simp [selectBest] at h
  | cons c cs =>
    simp only [selectBest, Option.some.injEq] at h
    rcases foldl_pick_mem cs c with h' | h' <;> rw [← h] at *
    · simp [h']
    · exact List.mem_cons_of_mem _ h'

theorem candidates_spec {ws : List String} {w : Nat} {p : List (List String)}
    (h : p ∈ candidates ws w) :
    p ∈ splitsN ws (greedy ws w).length ∧ widthOk p w = true ∧
      nondecChain (p.map lineLen) = true := by
  simp only [candidates, List.mem_filter, Bool.and_eq_true] at h
  exact ⟨h.1, h.2.1, h.2.2⟩

theorem wrapWords_cases (ws : List String) (w : Nat) :
    wrapWords ws w ∈ candidates ws w ∨ wrapWords ws w = greedy ws w := by
  unfold wrapWords
  cases hsel : selectBest (candidates ws w) with
  | none => right; rfl
  | some p => left; simpa using selectBest_mem hsel

theorem wrapWords_flatten (ws : List String) (w : Nat) :
    (wrapWords ws w).flatten = ws := by
  rcases wrapWords_cases ws w with h | h
  · exact splitsN_flatten _ ws _ (candidates_spec h).1
  · rw [h]; exact greedy_flatten ws w

theorem wrapWords_parts_ne_nil (ws : List String) (w : Nat) :
    ∀ l ∈ wrapWords ws w, l ≠ [] := by
  rcases wrapWords_cases ws w with h | h
  · exact splitsN_parts_ne_nil _ ws _ (candidates_spec h).1
  · rw [h]; exact greedy_parts_ne_nil ws w

theorem wrapWords_widthOk (ws : List String) (w : Nat) :
    ∀ l ∈ wrapWords ws w, lineLen l ≤ w ∨ l.length = 1 := by
  rcases wrapWords_cases ws w with h | h
  · intro l hl
    have := (candidates_spec h).2.1
    simp only [widthOk, List.all_eq_true] at this
    have := this l hl
    simpa [Bool.or_eq_true, decide_eq_true_eq] using this
  · rw [h]; exact greedy_widthOk ws w

/-! ## Joining lines back into text -/

theorem sjoin_cons (x : String) (l : List String) (h : l ≠ []) :
    sjoin (x :: l) = x ++ " " ++ sjoin l := by
  cases l with
  | nil => simp at h
  | cons y rest => rfl

theorem sjoin_append (l m : List String) (hl : l ≠ []) (hm : m ≠ []) :
    sjoin (l ++ m) = sjoin l ++ " " ++ sjoin m := by
  induction l with
  | nil => simp at hl
  | cons x rest ih =>
    cases rest with
    | nil => simp [sjoin_cons x m hm, sjoin]
    | cons y rest2 =>
      rw [List.cons_append, sjoin_cons x ((y :: rest2) ++ m) (by simp),
        ih (by simp), sjoin_cons x (y :: rest2) (by simp)]
      simp [String.append_assoc]

theorem flatten_ne_nil {p : List (List String)} (hp : p ≠ [])
    (h : ∀ l ∈ p, l ≠ []) : p.flatten ≠ [] := by
  cases p with
  | nil => simp at hp
  | cons l rest =>
    have hl : l ≠ [] := h l (by simp)
    cases l with
    | nil => simp at hl
    | cons a as => simp

theorem sjoin_flatten (p : List (List String)) (h : ∀ l ∈ p, l ≠ []) :
    sjoin (p.map sjoin) = sjoin p.flatten := by
  induction p with
  | nil => rfl
  | cons l rest ih =>
    cases rest with
    | nil => simp [sjoin]
    | cons l2 rest2 =>
      have hrest : ∀ m ∈ l2 :: rest2, m ≠ [] := fun m hm => h m (List.mem_cons_of_mem _ hm)
      have hflat : (l2 :: rest2).flatten ≠ [] := flatten_ne_nil (by simp) hrest
      rw [List.map_cons, sjoin_cons (sjoin l) _ (by simp), ih hrest,
        show (l :: l2 :: rest2).flatten = l ++ (l2 :: rest2).flatten from rfl,
        sjoin_append l _ (h l (by simp)) hflat]

theorem sjoin_length (l : List String) : (sjoin l).length = lineLen l := by
  induction l with
  | nil => rfl
  | cons x rest ih =>
    cases rest with
    | nil => simp [sjoin, lineLen]
    | cons y rest2 =>
      rw [sjoin_cons x (y :: rest2) (by simp), String.length_append, String.length_append, ih]
      have h1 : (" " : String).length = 1 := rfl
      rw [h1]
      simp only [lineLen, List.map_cons, List.sum_cons, List.length_cons]
      omega

theorem wrap_ok_inv {text : String} {mw : Int} {lines : List String}
    (hmw : 0 < mw) (h : wrap text mw = .ok lines) :
    wordsOf text ≠ [] ∧ lines = (wrapWords (wordsOf text) mw.toNat).map sjoin := by
  unfold wrap at h
  rw [if_neg (not_le.mpr hmw)] at h
  by_cases hw : wordsOf text = []
  · simp [hw] at h
  · simp only [hw, if_neg, Except.ok.injEq, reduceIte] at h
    exact ⟨hw, h.symm⟩

/-! ## Claims about the line breaker -/

/-- C1 (counterexample): on `"aa  bb"` with `max_width = 2` the wrapped lines
hold 4 characters while the trimmed original holds 6, so the total character
count of the wrapped lines does not equal the character count of the original
trimmed text. -/
theorem wrap_charcount_counterexample :
    wrap "aa  bb" 2 = Except.ok ["aa", "bb"] ∧
    strTrim "aa  bb" = "aa  bb" ∧
    (["aa", "bb"].map String.length).sum ≠ (strTrim "aa  bb").length :=
  ⟨rfl, rfl, by decide⟩

/-- C1 (amended): for text with at least one word and `max_width > 0`,
joining the wrapped lines with single spaces reproduces the
whitespace-normalized text exactly, and the total character count of the
wrapped lines equals the character count of the normalized text minus one per
inserted line break. -/
theorem wrap_reassembles (text : String) (mw : Int) (hmw : 0 < mw)
    (hw : wordsOf text ≠ []) :
    ∃ lines, wrap text mw = Except.ok lines ∧
      sjoin lines = sjoin (wordsOf text) ∧
      (lines.map String.length).sum + (lines.length - 1) = (sjoin (wordsOf text)).length := by
  refine ⟨(wrapWords (wordsOf text) mw.toNat).map sjoin, ?_, ?_, ?_⟩
  · unfold wrap
    rw [if_neg (not_le.mpr hmw)]
    simp [hw]
  · rw [sjoin_flatten _ (wrapWords_parts_ne_nil _ _), wrapWords_flatten]
  · show lineLen ((wrapWords (wordsOf text) mw.toNat).map sjoin) = _
    rw [← sjoin_length, sjoin_flatten _ (wrapWords_parts_ne_nil _ _), wrapWords_flatten]

/-- C1 witness at `text = "hello world"`, `max_width = 7`. -/
theorem wrap_reassembles_witness :
    ∃ lines, wrap "hello world" 7 = Except.ok lines ∧
      sjoin lines = sjoin (wordsOf "hello world") ∧
      (lines.map String.length).sum + (lines.length - 1) =
        (sjoin (wordsOf "hello world")).length :=
  wrap_reassembles "hello world" 7 (by decide) (by decide)

/-- C2: every wrapped line is at most `max_width` characters long, except that
a line consisting of a single (overlong) whitespace-delimited word of the text
may exceed the width. -/
theorem wrap_line_width (text : String) (mw : Int) (lines : List String)
    (hmw : 0 < mw) (h : wrap text mw = Except.ok lines) :
    ∀ l ∈ lines, l.length ≤ mw.toNat ∨ (l ∈ wordsOf text ∧ mw.toNat < l.length) := by
  obtain ⟨hw, rfl⟩ := wrap_ok_inv hmw h
  intro l hl
  simp only [List.mem_map] at hl
  obtain ⟨g, hg, rfl⟩ := hl
  rcases wrapWords_widthOk (wordsOf text) mw.toNat g hg with hfit | hone
  · left
    rw [sjoin_length]
    exact hfit
  · obtain ⟨x, rfl⟩ := List.length_eq_one.mp hone
    have hx : sjoin [x] = x := rfl
    by_cases hfit : (sjoin [x]).length ≤ mw.toNat
    · left; exact hfit
    · right
      refine ⟨?_, by omega⟩
      have hmem : x ∈ (wrapWords (wordsOf text) mw.toNat).flatten :=
        List.mem_flatten.mpr ⟨[x], hg, by simp⟩
      rw [wrapWords_flatten] at hmem
      rw [hx]
      exact hmem

/-- C2 witness at `text = "hello world"`, `max_width = 5`, line `"hello"`. -/
theorem wrap_line_width_witness :
    "hello".length ≤ (5 : Int).toNat ∨
      ("hello" ∈ wordsOf "hello world" ∧ (5 : Int).toNat < "hello".length) :=
  wrap_line_width "hello world" 5 ["hello", "world"] (by decide) rfl "hello" (by decide)

/-- C3 (counterexample): `wrap "abcd e" 5` yields the two lines
`["abcd", "e"]` with strictly decreasing lengths 4, 1 — no packing of these
words into two lines has non-decreasing lengths, so the greedy fallback's
decreasing shape is emitted. -/
theorem wrap_pyramid_counterexample :
    wrap "abcd e" 5 = Except.ok ["abcd", "e"] ∧
    nondecChain (["abcd", "e"].map String.length) = false :=
  ⟨rfl, by decide⟩

/-- C3 (amended): for every output of `wrap` with at least two lines, the line
lengths are non-decreasing from first to last, provided some width-respecting
packing of the words into the same number of lines with non-decreasing line
lengths exists. -/
theorem wrap_pyramid (text : String) (mw : Int) (lines : List String)
    (hmw : 0 < mw) (h : wrap text mw = Except.ok lines)
    (hn : 2 ≤ lines.length)
    (hc : candidates (wordsOf text) mw.toNat ≠ []) :
    nondecChain (lines.map String.length) = true := by
  obtain ⟨hw, rfl⟩ := wrap_ok_inv hmw h
  obtain ⟨p, hp⟩ : ∃ p, selectBest (candidates (wordsOf text) mw.toNat) = some p := by
    cases hcand : candidates (wordsOf text) mw.toNat with
    | nil => exact absurd hcand hc
    | cons c cs => exact ⟨_, rfl⟩
  have hww : wrapWords (wordsOf text) mw.toNat = p := by
    unfold wrapWords
    rw [hp]
  have hnd := (candidates_spec (selectBest_mem hp)).2.2
  have hmap : List.map (String.length ∘ sjoin) p = List.map lineLen p :=
    List.map_congr_left (fun g _ => sjoin_length g)
  rw [hww, List.map_map, hmap]
  exact hnd

/-- C3 witness at `text = "hello world"`, `max_width = 5`. -/
theorem wrap_pyramid_witness :
    nondecChain ((["hello", "world"] : List String).map String.length) = true :=
  wrap_pyramid "hello world" 5 ["hello", "world"] (by decide) rfl (by decide) (by decide)

/-- C8: a `max_width` of 0 disables line breaking — `wrap` returns the text
unmodified as a single line (for every text, in particular every non-empty
one). -/
theorem wrap_zero_disabled (text : String) : wrap text 0 = Except.ok [text] := rfl

/-! ## Time formatter lemmas -/

theorem floor_ms (q : ℚ) :
    ⌊q * 1000 + 1 / 2⌋ = (2000 * q.num + q.den) / (2 * (q.den : ℤ)) := by
  have hden : (q.den : ℚ) ≠ 0 := Nat.cast_ne_zero.mpr q.den_nz
  have h : q * 1000 + 1 / 2 = ((2000 * q.num + (q.den : ℤ) : ℤ) : ℚ) / ((2 * q.den : ℕ) : ℚ) := by
    conv_lhs => rw [← Rat.num_div_den q]
    push_cast
    field_simp
    ring
  rw [h, Rat.floor_intCast_div_natCast]
  push_cast
  ring_nf

theorem msOf_eq_roundHalfAway (q : ℚ) : msOf q = roundHalfAway (q * 1000) := by
  have hiff : 0 ≤ q.num ↔ 0 ≤ q * 1000 := by
    rw [Rat.num_nonneg, mul_nonneg_iff_of_pos_right (by norm_num : (0 : ℚ) < 1000)]
  unfold msOf roundHalfAway
  by_cases hn : 0 ≤ q.num
  · rw [if_pos hn, if_pos (hiff.mp hn), floor_ms]
  · rw [if_neg hn, if_neg (fun hc => hn (hiff.mpr hc)),
      show q * 1000 - 1 / 2 = -(-q * 1000 + 1 / 2) by ring, Int.ceil_neg,
      floor_ms (-q), Rat.neg_num, Rat.neg_den]

theorem formatTimestamp_ok (q : ℚ) (hq : 0 ≤ q) (d : Dialect) :
    formatTimestamp q d = .ok (renderMs (msOf q).toNat d) := by
  unfold formatTimestamp
  rw [if_neg (not_lt.mpr hq)]

set_option maxRecDepth 4000 in
theorem pad2_length : ∀ n < 100, (pad2 n).length = 2 := by decide

set_option maxRecDepth 40000 in
theorem pad3_length : ∀ n < 1000, (pad3 n).length = 3 := by decide

/-! ## Claims about the time formatter -/

/-- C4 (counterexample): at 100 hours (`seconds = 360000`) the hours field of
the formatted time-code takes three digits, so the output does not have the
always-two-digit-hours shape `HH:MM:SS<sep>mmm` (of length 12). -/
theorem formatTimestamp_hours_counterexample :
    formatTimestamp (mkRat 360000 1) Dialect.srt = Except.ok "100:00:00,000" ∧
    ("100:00:00,000" : String).length ≠ 12 :=
  ⟨rfl, by decide⟩

/-- C4 (amended): `format(3661.5)` is `"01:01:01,500"` under the comma dialect
and `"01:01:01.500"` under the dot dialect; in general, for every
`seconds ≥ 0` and either dialect the output is
`HH:MM:SS<sep>mmm` with two-digit minutes and seconds and three-digit
milliseconds, and the hours field is two digits whenever the rounded
timestamp is below 100 hours (it widens beyond two digits otherwise). -/
theorem formatTimestamp_shape :
    formatTimestamp (mkRat 7323 2) Dialect.srt = Except.ok "01:01:01,500" ∧
    formatTimestamp (mkRat 7323 2) Dialect.vtt = Except.ok "01:01:01.500" ∧
    ∀ q : ℚ, 0 ≤ q → ∀ d : Dialect,
      ∃ h m s ms, formatTimestamp q d =
          Except.ok (pad2 h ++ ":" ++ pad2 m ++ ":" ++ pad2 s ++ d.sep ++ pad3 ms) ∧
        m < 60 ∧ s < 60 ∧ ms < 1000 ∧
        (pad2 m).length = 2 ∧ (pad2 s).length = 2 ∧ (pad3 ms).length = 3 ∧
        ((msOf q).toNat < 360000000 → (pad2 h).length = 2) := by
  refine ⟨rfl, rfl, ?_⟩
  intro q hq d
  refine ⟨(msOf q).toNat / 3600000, (msOf q).toNat % 3600000 / 60000,
    (msOf q).toNat % 60000 / 1000, (msOf q).toNat % 1000,
    ?_, by omega, by omega, by omega, pad2_length _ (by omega), pad2_length _ (by omega),
    pad3_length _ (by omega), fun hb => pad2_length _ (by omega)⟩
  rw [formatTimestamp_ok q hq d]
  rfl

/-- C4 witness at `seconds = 1/2`, comma dialect. -/
theorem formatTimestamp_shape_witness :
    ∃ h m s ms, formatTimestamp (mkRat 1 2) Dialect.srt =
        Except.ok (pad2 h ++ ":" ++ pad2 m ++ ":" ++ pad2 s ++ Dialect.srt.sep ++ pad3 ms) ∧
      m < 60 ∧ s < 60 ∧ ms < 1000 ∧
      (pad2 m).length = 2 ∧ (pad2 s).length = 2 ∧ (pad3 ms).length = 3 ∧
      ((msOf (mkRat 1 2)).toNat < 360000000 → (pad2 h).length = 2) :=
  formatTimestamp_shape.2.2 (mkRat 1 2) (by decide) Dialect.srt

/-- C5: for every `seconds ≥ 0`, the comma-dialect and dot-dialect time-codes
share a common prefix and suffix and differ exactly in the one-character
millisecond separator. -/
theorem formatTimestamp_dialect_sep (q : ℚ) (hq : 0 ≤ q) :
    ∃ pre post : String,
      formatTimestamp q Dialect.srt = Except.ok (pre ++ "," ++ post) ∧
      formatTimestamp q Dialect.vtt = Except.ok (pre ++ "." ++ post) := by
  refine ⟨pad2 ((msOf q).toNat / 3600000) ++ ":" ++ pad2 ((msOf q).toNat % 3600000 / 60000) ++
      ":" ++ pad2 ((msOf q).toNat % 60000 / 1000), pad3 ((msOf q).toNat % 1000), ?_, ?_⟩
  · rw [formatTimestamp_ok q hq]
    rfl
  · rw [formatTimestamp_ok q hq]
    rfl

/-- C5 witness at `seconds = 0`. -/
theorem formatTimestamp_dialect_sep_witness :
    ∃ pre post : String,
      formatTimestamp (mkRat 0 1) Dialect.srt = Except.ok (pre ++ "," ++ post) ∧
      formatTimestamp (mkRat 0 1) Dialect.vtt = Except.ok (pre ++ "." ++ post) :=
  formatTimestamp_dialect_sep (mkRat 0 1) (by decide)

/-! ## Claims about the renderer and writers -/

/-- C6: on the 2-segment transcript `(0.0, 1.0, "Hello world")`,
`(1.0, 2.5, "Goodbye")` the SRT (dialect B) writer produces exactly the index
line `1`, the time-code line, the caption, a blank line, then the same for
index `2` — with no header, 1-based indices, and one blank line after each
caption block. -/
theorem writeSRT_example :
    writeSRT [⟨mkRat 0 1, mkRat 1 1, "Hello world"⟩, ⟨mkRat 1 1, mkRat 5 2, "Goodbye"⟩] 0 =
      Except.ok ["1", "00:00:00,000 --> 00:00:01,000", "Hello world", "",
        "2", "00:00:01,000 --> 00:00:02,500", "Goodbye", ""] := rfl

theorem render_invalid (seg : Segment) (i : Option Nat) (d : Dialect) (mw : Int)
    (hbad : seg.start < 0 ∨ seg.stop < 0 ∨ seg.stop < seg.start) :
    render seg i d mw = .error .invalidTimestamp := by
  by_cases hss : seg.stop < seg.start
  · simp [render, hss]
  · have hstart : seg.start < 0 := by
      rcases hbad with h | h | h
      · exact h
      · exact lt_of_le_of_lt (not_lt.mp hss) h
      · exact absurd h hss
    simp [render, hss, formatTimestamp, hstart]

/-- C7: a segment whose start or end is negative or whose end precedes its
start makes the core fail with `InvalidTimestamp` immediately: the time
formatter rejects every negative input, the renderer rejects the segment, and
both writers propagate the error to the caller. -/
theorem invalidTimestamp_raised :
    (∀ q : ℚ, q < 0 → ∀ d : Dialect, formatTimestamp q d = .error .invalidTimestamp) ∧
    (∀ seg : Segment, ∀ i : Option Nat, ∀ d : Dialect, ∀ mw : Int,
      seg.start < 0 ∨ seg.stop < 0 ∨ seg.stop < seg.start →
        render seg i d mw = .error .invalidTimestamp) ∧
    (∀ seg : Segment, ∀ rest : List Segment, ∀ mw : Int,
      seg.start < 0 ∨ seg.stop < 0 ∨ seg.stop < seg.start →
        writeSRT (seg :: rest) mw = .error .invalidTimestamp ∧
        writeVTT (seg :: rest) mw = .error .invalidTimestamp) := by
  refine ⟨?_, render_invalid, ?_⟩
  · intro q hq d
    simp [formatTimestamp, hq]
  · intro seg rest mw hbad
    constructor
    · show writeSRTGo mw 1 (seg :: rest) = _
      rw [writeSRTGo, render_invalid seg _ _ _ hbad]
    · show writeVTT (seg :: rest) mw = _
      rw [writeVTT, writeVTTGo, render_invalid seg _ _ _ hbad]

/-- C7 witness: a segment starting at -1 is rejected by the formatter, the
renderer and the SRT writer. -/
theorem invalidTimestamp_raised_witness :
    formatTimestamp (mkRat (-1) 1) Dialect.srt = Except.error CoreError.invalidTimestamp ∧
    render ⟨mkRat (-1) 1, mkRat 1 1, "x"⟩ none Dialect.vtt 0 =
      Except.error CoreError.invalidTimestamp ∧
    writeSRT [⟨mkRat (-1) 1, mkRat 1 1, "x"⟩] 0 = Except.error CoreError.invalidTimestamp :=
  ⟨invalidTimestamp_raised.1 (mkRat (-1) 1) (by decide) Dialect.srt,
    invalidTimestamp_raised.2.1 ⟨mkRat (-1) 1, mkRat 1 1, "x"⟩ none Dialect.vtt 0
      (Or.inl (by decide)),
    (invalidTimestamp_raised.2.2 ⟨mkRat (-1) 1, mkRat 1 1, "x"⟩ [] 0 (Or.inl (by decide))).1⟩

/-! ## Claims about the orchestrator's warning-filter mutation -/

theorem effAction_filterwarnings (a : WAction) (st : List WFilter) (w : Nat) :
    effAction (filterwarnings a st) w = a := rfl

theorem mainWarnLoop_default (k : Nat) :
    ∀ st : List WFilter, 1 ≤ k → ∀ w, effAction (mainWarnLoop st k) w = .default := by
  induction k with
  | zero => intro st h; omega
  | succ k ih =>
    intro st _ w
    show effAction (mainWarnLoop (transcribeWarnStep st) k) w = .default
    cases k with
    | zero => rfl
    | succ k2 => exact ih _ (by omega) w

/-- C9: around each transcription, `main` prepends an ignore-everything filter
to the global warnings state, and afterwards prepends a default-everything
filter rather than restoring the previous state — so after the first source
has been transcribed, the effective action for every warning is `default`
regardless of the filters the embedding environment had installed (here: an
environment-installed error-all filter is dead after one iteration). -/
theorem warnings_global_mutation :
    (∀ st : List WFilter, ∀ w, effAction (filterwarnings .ignore st) w = .ignore) ∧
    (∀ st : List WFilter, ∀ k, 1 ≤ k → ∀ w, effAction (mainWarnLoop st k) w = .default) ∧
    (effAction [⟨fun _ => true, .error⟩] 0 = .error ∧
      effAction (mainWarnLoop [⟨fun _ => true, .error⟩] 1) 0 = .default) := by
  refine ⟨fun st w => effAction_filterwarnings _ st w,
    fun st k hk w => mainWarnLoop_default k st hk w, rfl, rfl⟩

/-- C9 witness: starting from an empty filter state, after one transcription
the effective action for warning 0 is `default`, and during the call it is
`ignore`. -/
theorem warnings_global_mutation_witness :
    effAction (filterwarnings .ignore []) 0 = .ignore ∧
    effAction (mainWarnLoop [] 1) 0 = .default :=
  ⟨warnings_global_mutation.1 [] 0, warnings_global_mutation.2.1 [] 1 (by decide) 0⟩

/-! ## Claims about `get_audio`'s title-keyed dictionary -/

theorem dictInsert_keys_mem {β : Type} (k : String) (v : β) (l : List (String × β))
    (h : k ∈ l.map Prod.fst) : (dictInsert k v l).map Prod.fst = l.map Prod.fst := by
  induction l with
  | nil => simp at h
  | cons p rest ih =>
    obtain ⟨k', v'⟩ := p
    by_cases hk : k' = k
    · simp [dictInsert, hk]
    · simp only [List.map_cons, List.mem_cons] at h
      rcases h with h | h
      · exact absurd h.symm hk
      · simp [dictInsert, hk, ih h]

theorem dictInsert_keys_not_mem {β : Type} (k : String) (v : β) (l : List (String × β))
    (h : k ∉ l.map Prod.fst) : (dictInsert k v l).map Prod.fst = l.map Prod.fst ++ [k] := by
  induction l with
  | nil => simp [dictInsert]
  | cons p rest ih =>
    obtain ⟨k', v'⟩ := p
    simp only [List.map_cons, List.mem_cons] at h
    push_neg at h
    simp [dictInsert, Ne.symm h.1, ih h.2]

theorem dictInsert_keys_subset {β : Type} (k : String) (v : β) (l : List (String × β)) :
    (dictInsert k v l).map Prod.fst ⊆ l.map Prod.fst ++ [k] := by
  by_cases hk : k ∈ l.map Prod.fst
  · rw [dictInsert_keys_mem k v l hk]
    exact List.subset_append_left _ _
  · rw [dictInsert_keys_not_mem k v l hk]
    exact fun x hx => hx

theorem dictInsert_lookup {β : Type} (k : String) (v : β) (l : List (String × β)) :
    List.lookup k (dictInsert k v l) = some v := by
  induction l with
  | nil => simp [dictInsert, List.lookup]
  | cons p rest ih =>
    obtain ⟨k', v'⟩ := p
    by_cases hk : k' = k
    · simp [dictInsert, hk, List.lookup]
    · have hbeq : (k == k') = false := beq_false_of_ne (Ne.symm hk)
      simp [dictInsert, hk, List.lookup, hbeq, ih]

theorem dictInsert_length_mem {β : Type} (k : String) (v : β) (l : List (String × β))
    (h : k ∈ l.map Prod.fst) : (dictInsert k v l).length = l.length := by
  have hc := congrArg List.length (dictInsert_keys_mem k v l h)
  simpa using hc

theorem dictInsert_keys_nodup {β : Type} (k : String) (v : β) (l : List (String × β))
    (h : (l.map Prod.fst).Nodup) : ((dictInsert k v l).map Prod.fst).Nodup := by
  by_cases hk : k ∈ l.map Prod.fst
  · rw [dictInsert_keys_mem k v l hk]
    exact h
  · rw [dictInsert_keys_not_mem k v l hk]
    simp [List.nodup_append, h, hk]

theorem getAudioGo_append (r : String → VideoInfo) (t : String) (xs ys : List String) :
    ∀ acc, getAudioGo r t acc (xs ++ ys) = getAudioGo r t (getAudioGo r t acc xs) ys := by
  induction xs with
  | nil => intro acc; rfl
  | cons x rest ih => intro acc; simp [getAudioGo, ih]

theorem getAudioGo_keys_subset (r : String → VideoInfo) (t : String) (urls : List String) :
    ∀ acc : List (String × AudioData),
      (getAudioGo r t acc urls).map Prod.fst ⊆
        acc.map Prod.fst ++ urls.map (fun u => (r u).title) := by
  induction urls with
  | nil => intro acc; simp [getAudioGo]
  | cons u rest ih =>
    intro acc x hx
    rcases List.mem_append.mp (ih _ hx) with h1 | h1
    · rcases List.mem_append.mp (dictInsert_keys_subset _ _ _ h1) with h2 | h2
      · exact List.mem_append.mpr (Or.inl h2)
      · refine List.mem_append.mpr (Or.inr ?_)
        simp only [List.mem_singleton] at h2
        simp [h2]
    · refine List.mem_append.mpr (Or.inr ?_)
      simp only [List.map_cons, List.mem_cons]
      exact Or.inr h1

theorem getAudioGo_keys_nodup (r : String → VideoInfo) (t : String) (urls : List String) :
    ∀ acc : List (String × AudioData),
      ((acc.map Prod.fst).Nodup) → ((getAudioGo r t acc urls).map Prod.fst).Nodup := by
  induction urls with
  | nil => intro acc h; exact h
  | cons u rest ih => intro acc h; exact ih _ (dictInsert_keys_nodup _ _ _ h)

theorem nodup_subset_dedup_length {l1 l2 : List String} (h1 : l1.Nodup) (h2 : l1 ⊆ l2) :
    l1.length ≤ l2.dedup.length := by
  have hsub : l1.toFinset ⊆ l2.toFinset := fun x hx =>
    List.mem_toFinset.mpr (h2 (List.mem_toFinset.mp hx))
  calc l1.length = l1.toFinset.card := (List.toFinset_card_of_nodup h1).symm
    _ ≤ l2.toFinset.card := Finset.card_le_card hsub
    _ = l2.dedup.length := List.card_toFinset l2

theorem dedup_length_lt_of_not_nodup {l : List String} (h : ¬ l.Nodup) :
    l.dedup.length < l.length := by
  have hsub := List.dedup_sublist l
  rcases lt_or_eq_of_le hsub.length_le with hlt | heq
  · exact hlt
  · refine absurd ?_ h
    rw [← hsub.eq_of_length heq]
    exact List.nodup_dedup l

/-- C10: `get_audio` returns a dictionary keyed by video title, so it never
has more entries than input URLs; whenever two distinct URLs resolve to the
same title it has strictly fewer entries than URLs (and `main` then writes
fewer subtitle files than inputs, one per entry); and a URL whose title is
already a key overwrites the earlier entry in place instead of adding one. -/
theorem getAudio_title_overwrite :
    (∀ (r : String → VideoInfo) (t : String) (urls : List String),
      (getAudio r t urls).length ≤ urls.length) ∧
    (∀ (r : String → VideoInfo) (t : String) (urls : List String),
      ∀ u ∈ urls, ∀ v ∈ urls, u ≠ v → (r u).title = (r v).title →
        (getAudio r t urls).length < urls.length) ∧
    (∀ (r : String → VideoInfo) (t : String) (us : List String) (u : String),
      (r u).title ∈ (getAudio r t us).map Prod.fst →
        (getAudio r t (us ++ [u])).length = (getAudio r t us).length ∧
        List.lookup (r u).title (getAudio r t (us ++ [u])) =
          some (audioEntry t (r u))) := by
  have hkeylen : ∀ (r : String → VideoInfo) (t : String) (urls : List String),
      (getAudio r t urls).length = ((getAudio r t urls).map Prod.fst).length :=
    fun r t urls => (List.length_map _ _).symm
  have hchain : ∀ (r : String → VideoInfo) (t : String) (urls : List String),
      (getAudio r t urls).length ≤ (urls.map (fun u => (r u).title)).dedup.length := by
    intro r t urls
    rw [hkeylen]
    refine nodup_subset_dedup_length (getAudioGo_keys_nodup r t urls [] (by simp)) ?_
    simpa using getAudioGo_keys_subset r t urls []
  refine ⟨?_, ?_, ?_⟩
  · intro r t urls
    calc (getAudio r t urls).length
        ≤ (urls.map (fun u => (r u).title)).dedup.length := hchain r t urls
      _ ≤ (urls.map (fun u => (r u).title)).length := (List.dedup_sublist _).length_le
      _ = urls.length := List.length_map _ _
  · intro r t urls u hu v hv huv htitle
    have hdup : ¬ (urls.map (fun x => (r x).title)).Nodup := fun hnd =>
      huv (List.inj_on_of_nodup_map hnd hu hv htitle)
    calc (getAudio r t urls).length
        ≤ (urls.map (fun x => (r x).title)).dedup.length := hchain r t urls
      _ < (urls.map (fun x => (r x).title)).length := dedup_length_lt_of_not_nodup hdup
      _ = urls.length := List.length_map _ _
  · intro r t us u hmem
    have hsplit : getAudio r t (us ++ [u]) =
        dictInsert (r u).title (audioEntry t (r u)) (getAudio r t us) := by
      unfold getAudio
      rw [getAudioGo_append]
      rfl
    rw [hsplit]
    exact ⟨dictInsert_length_mem _ _ _ hmem, dictInsert_lookup _ _ _⟩

/-- C10 witness: two URLs resolving to the same title yield a single-entry
dictionary — one output file for two downloads. -/
theorem getAudio_title_overwrite_witness :
    (getAudio (fun _ => ⟨"same title", "vid"⟩) "/tmp" ["urlA", "urlB"]).length <
      (["urlA", "urlB"] : List String).length :=
  getAudio_title_overwrite.2.1 (fun _ => ⟨"same title", "vid"⟩) "/tmp" ["urlA", "urlB"]
    "urlA" (by decide) "urlB" (by decide) (by decide) rfl

end YtWhisper
